import Mathlib

/-!
Shallow embedding of the resource-hub example scripts
`examples/build_shakespeare_hdf5.py` and `examples/shakespeare_hdf5_vectors.py`:
the token-window chunkers, the range-index builder, the HDF5 store writer, the
idempotent build orchestrator and the cosine top-k query engine.

Conventions used throughout:
* token ids are natural numbers and decoded text is `String`;
* the external tokenizer decode step is an opaque parameter `decode`;
* float32 values are modelled by exact integers `Int` (the control flow of the
  embedded code depends on scores only through comparisons);
* a raised Python exception is modelled by an `Option`-valued result being
  `none`.
-/

/-- Python `range(0, n, step)` as the list of visited loop indices.  A zero
step raises `ValueError` in Python; the callers below guard that case
separately, so it is mapped to the empty list here. -/
def pyRange (n step : Nat) : List Nat :=
  if step = 0 then [] else List.range' 0 ((n + step - 1) / step) step

/-- Whitespace characters removed by the Python `str.strip` call (ASCII part). -/
def pyIsSpace (c : Char) : Bool :=
  c == ' ' || c == '\t' || c == '\n' || c == '\r' || c == '\x0b' || c == '\x0c'

/-- Python `str.strip`: drop whitespace from both ends. -/
def pyStrip (s : String) : String :=
  ⟨((s.data.dropWhile pyIsSpace).reverse.dropWhile pyIsSpace).reverse⟩

/-- ASCII lowering of one character, modelling Python `str.lower`. -/
def pyLowerChar (c : Char) : Char :=
  if 'A' ≤ c ∧ c ≤ 'Z' then Char.ofNat (c.toNat + 32) else c

/-- Python `str.lower` (ASCII part). -/
def pyLower (s : String) : String :=
  ⟨s.data.map pyLowerChar⟩

/-- Boolean test that `needle` occurs at the head of `hay`. -/
def headMatches : List Char → List Char → Bool
  | [], _ => true
  | _ :: _, [] => false
  | a :: as, b :: bs => a == b && headMatches as bs

/-- Python substring containment `needle in hay` on character lists. -/
def containsChars (needle : List Char) : List Char → Bool
  | [] => needle.isEmpty
  | b :: bs => headMatches needle (b :: bs) || containsChars needle bs

/-!  The two chunkers. -/

/-- Loop of `chunk_text_by_tokens` in build_shakespeare_hdf5.py (lines
128-136) over the visited start offsets: each window is
`[start, min(start + max_tokens, n))`, its sliced ids are decoded, and the
loop breaks once the window end reaches `n`. -/
def cttLoop (decode : List Nat → String) (ids : List Nat) (n max_tokens : Nat) :
    List Nat → List (String × Nat × Nat)
  | [] => []
  | s :: rest =>
    (decode ((ids.drop s).take (min (s + max_tokens) n - s)), s,
      min (s + max_tokens) n) ::
      (if n ≤ min (s + max_tokens) n then []
       else cttLoop decode ids n max_tokens rest)

/-- Embedding of `chunk_text_by_tokens` (build_shakespeare_hdf5.py, lines
109-136).  The external `tokenizer.encode` step is outside the core, so the
function consumes the token ids directly; `decode` models `tokenizer.decode`.
The leading `assert` is modelled by returning `none` when it fails
(`stride ≥ 0` holds inherently over `Nat`). -/
def chunk_text_by_tokens (decode : List Nat → String) (ids : List Nat)
    (max_tokens stride : Nat) : Option (List (String × Nat × Nat)) :=
  if 0 < max_tokens ∧ stride < max_tokens then
    some (cttLoop decode ids ids.length max_tokens
      (pyRange ids.length (max_tokens - stride)))
  else none

/-- Loop of `chunk_by_tokens` in shakespeare_hdf5_vectors.py (lines 196-204)
over the visited start offsets: every start below `n` is visited, the decoded
window text is stripped and dropped when empty, and there is no break once the
window end reaches `n`; the loop stops early only on an empty window slice. -/
def cbtLoop (decode : List Nat → String) (ids : List Nat) (max_tokens : Nat) :
    List Nat → List String
  | [] => []
  | s :: rest =>
    if ((ids.drop s).take max_tokens).isEmpty then []
    else
      (if pyStrip (decode ((ids.drop s).take max_tokens)) = "" then []
       else [pyStrip (decode ((ids.drop s).take max_tokens))]) ++
        cbtLoop decode ids max_tokens rest

/-- Embedding of `chunk_by_tokens` (shakespeare_hdf5_vectors.py, lines
182-204).  With `max_tokens = 0` the computed step is 0 and Python `range`
raises `ValueError`, modelled by `none`; with `max_tokens ≤ overlap` the step
silently falls back to `max_tokens`. -/
def chunk_by_tokens (decode : List Nat → String) (ids : List Nat)
    (max_tokens overlap : Nat) : Option (List String) :=
  if ids.isEmpty then some []
  else
    if (if overlap < max_tokens then max_tokens - overlap else max_tokens) = 0 then
      none
    else
      some (cbtLoop decode ids max_tokens
        (pyRange ids.length
          (if overlap < max_tokens then max_tokens - overlap else max_tokens)))

/-!  Spec-side window formulas, used to state the chunking claims. -/

/-- Index of the first window whose end reaches `n` when windows of width
`max_tokens` start at `s, s + step, s + 2*step, ...`. -/
def specL (n max_tokens step s : Nat) : Nat :=
  if n ≤ s + max_tokens then 0 else (n - s - max_tokens + step - 1) / step

/-- Spec-side window list: windows `[i*step, min(i*step + max_tokens, n))` for
`i = 0, 1, ...`, stopping after the first window whose end reaches `n`; empty
for an empty token sequence. -/
def claimWindows (n max_tokens step : Nat) : List (Nat × Nat) :=
  if n = 0 then []
  else
    (List.range (specL n max_tokens step 0 + 1)).map
      (fun i => (i * step, min (i * step + max_tokens) n))

/-- Window offsets computed by `cttLoop`; they depend only on the token count,
never on the decoded content. -/
def offsLoop (n max_tokens : Nat) : List Nat → List (Nat × Nat)
  | [] => []
  | s :: rest =>
    (s, min (s + max_tokens) n) ::
      (if n ≤ min (s + max_tokens) n then [] else offsLoop n max_tokens rest)

/-- Window offsets visited by `chunk_by_tokens` when the effective stride is
`m` (the fallback case `overlap ≥ max_tokens = m`). -/
def cbtAllWindows (n m : Nat) : List (Nat × Nat) :=
  (List.range ((n + m - 1) / m)).map (fun i => (i * m, min (i * m + m) n))

/-- Stripped decoded text of one window, or `none` when it strips to empty. -/
def stripNE (s : String) : Option String :=
  if pyStrip s = "" then none else some (pyStrip s)

/-!  The range-index builder of `build_if_missing`. -/

/-- One row of the works index table (`/works/index` in the HDF5 file). -/
structure WorkRec where
  work_id : Nat
  title : String
  start_row : Nat
  end_row : Nat
deriving DecidableEq

/-- Accumulator of the chunking loop in `build_if_missing`
(shakespeare_hdf5_vectors.py, lines 317-337). -/
structure BuildSt where
  all_chunks : List String
  all_work_ids : List Nat
  works_index : List WorkRec
  row_cursor : Nat
deriving DecidableEq

/-- Body of the chunking loop in `build_if_missing`: a work yielding no chunks
is skipped, otherwise its chunks are appended, its rows are labelled with its
work id, one works-index entry `(cursor, cursor + m)` is recorded and the
cursor advances by `m`. -/
def buildStep (chunksOf : String → List String) (st : BuildSt)
    (wk : Nat × String × String) : BuildSt :=
  if chunksOf wk.2.2 = [] then st
  else
    { all_chunks := st.all_chunks ++ chunksOf wk.2.2
      all_work_ids := st.all_work_ids ++ List.replicate (chunksOf wk.2.2).length wk.1
      works_index := st.works_index ++
        [⟨wk.1, wk.2.1, st.row_cursor, st.row_cursor + (chunksOf wk.2.2).length⟩]
      row_cursor := st.row_cursor + (chunksOf wk.2.2).length }

/-- Chunk list of one work body in `build_if_missing`: `chunk_by_tokens` with
`max_tokens = 256` and `overlap = 32`; with these constants the call cannot
raise, so the default branch of `getD` is unreachable. -/
def chunksOfBody (encode : String → List Nat) (decode : List Nat → String)
    (body : String) : List String :=
  (chunk_by_tokens decode (encode body) 256 32).getD []

/-- Chunking and works-index phase of `build_if_missing` over the ordered
works list of `(title, body)` pairs, starting from the empty state. -/
def buildWorksState (encode : String → List Nat) (decode : List Nat → String)
    (works : List (String × String)) : BuildSt :=
  works.enum.foldl (buildStep (chunksOfBody encode decode)) ⟨[], [], [], 0⟩

/-- The ranges in the list are consecutive and non-empty starting at cursor
`c`. -/
def chainFrom : Nat → List (Nat × Nat) → Prop
  | _, [] => True
  | c, r :: rest => r.1 = c ∧ c < r.2 ∧ chainFrom r.2 rest

/-- Final cursor after a list of consecutive ranges. -/
def chainEnd : Nat → List (Nat × Nat) → Nat
  | c, [] => c
  | _, r :: rest => chainEnd r.2 rest

/-!  The store writer and the build orchestrator. -/

/-- Logical content of the HDF5 file written by `write_hdf5`
(shakespeare_hdf5_vectors.py, lines 222-294): per-row datasets, the works
index table and the metadata attributes. -/
structure H5File where
  chunks_text : List String
  chunks_work_id : List Nat
  chunks_embedding : List (List Int)
  works_index : List WorkRec
  meta : List (String × String)
deriving DecidableEq

/-- Embedding of `write_hdf5` (shakespeare_hdf5_vectors.py, lines 222-294).
Failure paths, each modelled by `none`, in program order: the chained assert
`len(all_chunks) == embeddings.shape[0] == len(all_work_ids)` raises
`AssertionError`; the unpack `N, D = embeddings.shape` requires a rectangular
2-D array, so ragged data raises; and every dataset is created with
`chunks=True` plus gzip, a chunked layout that HDF5 rejects whenever a data
dimension is zero (a chunk dimension must be at least 1 and must not exceed
the fixed dimension), so `chunks/text` raises when `N = 0`,
`chunks/embedding` raises when `D = 0`, and `works/index` raises when the
works index is empty.  No check relates `all_work_ids` to `works_index`: an
uncovered work id is written without error. -/
def write_hdf5 (all_chunks : List String) (all_work_ids : List Nat)
    (embeddings : List (List Int)) (works_index : List WorkRec)
    (meta : List (String × String)) : Option H5File :=
  if all_chunks.length = embeddings.length ∧
      embeddings.length = all_work_ids.length then
    if ∀ e ∈ embeddings, e.length = (embeddings.getD 0 []).length then
      if all_chunks.length = 0 then none
      else if (embeddings.getD 0 []).length = 0 then none
      else if works_index.length = 0 then none
      else some ⟨all_chunks, all_work_ids, embeddings, works_index, meta⟩
    else none
  else none

/-- Zero-chunk guard in `main` of build_shakespeare_hdf5.py (lines 297-298):
`RuntimeError` when no chunks were produced, modelled by `none`. -/
def chunksProducedCheck (chunks : List (String × Nat × Nat)) :
    Option (List (String × Nat × Nat)) :=
  if chunks.length = 0 then none else some chunks

/-- Embedding of the skip logic of `build_if_missing`
(shakespeare_hdf5_vectors.py, lines 300-303): when the output file exists and
no rebuild was forced the function returns at once and the file system is
untouched; otherwise the full pipeline runs, and `pipeline` is the store it
would publish at the output path (`none` for a failed build). -/
def build_if_missing (existing : Option H5File) (rebuild : Bool)
    (pipeline : Option H5File) : Option H5File :=
  if existing.isSome ∧ rebuild = false then existing else pipeline

/-!  The query engine. -/

/-- Dot product over the integer stand-ins for float32 vectors. -/
def dotZ (a b : List Int) : Int :=
  (List.zipWith (fun x y => x * y) a b).sum

/-- Score of one stored row against the normalized query vector. -/
def scoreAt (embs : List (List Int)) (qv : List Int) (r : Nat) : Int :=
  dotZ (embs.getD r []) qv

/-- Blocked score computation of `query_hdf5` (lines 426-431): the candidate
row list is scanned in blocks of `block` rows and the per-row dot products are
written to the score array block by block. -/
def blockedScores (embs : List (List Int)) (qv : List Int) (block : Nat)
    (rows : List Nat) : List Int :=
  (pyRange rows.length block).flatMap
    (fun i => ((rows.drop i).take block).map (scoreAt embs qv))

/-- Embedding of `find_work_rows` (lines 383-388): first works-index entry
whose lowered title contains the lowered filter substring. -/
def find_work_rows (works_idx : List WorkRec) (t : String) :
    Option (Nat × Nat) :=
  (works_idx.find?
    (fun w => containsChars (pyLower t).data (pyLower w.title).data)).map
    (fun w => (w.start_row, w.end_row))

/-- Candidate row list of `query_hdf5` (lines 414-422): all rows, or the rows
of the first work matching the filter; a missing match raises `ValueError`,
modelled by `none`.  An empty filter string is falsy in Python and means no
filter. -/
def candidateRows (n : Nat) (works_idx : List WorkRec) (wf : Option String) :
    Option (List Nat) :=
  match wf with
  | none => some (List.range n)
  | some s =>
    if s.data.isEmpty then some (List.range n)
    else
      match find_work_rows works_idx s with
      | none => none
      | some b => some (List.range' b.1 (b.2 - b.1))

/-- Specification of `np.argpartition` applied to the negated scores with
pivot position `kth`: a permutation of the score indices whose positions up to
`kth` all score at least the pivot and whose positions from `kth` on all score
at most the pivot.  Which tied index lands where is not determined. -/
def ArgpartTopSpec (scores : List Int) (kth : Nat) (p : List Nat) : Prop :=
  p.Perm (List.range scores.length) ∧ kth < scores.length ∧
  (∀ i, i ≤ kth → scores.getD (p.getD kth 0) 0 ≤ scores.getD (p.getD i 0) 0) ∧
  (∀ j, j < scores.length → kth ≤ j →
    scores.getD (p.getD j 0) 0 ≤ scores.getD (p.getD kth 0) 0)

instance (scores : List Int) (kth : Nat) (p : List Nat) :
    Decidable (ArgpartTopSpec scores kth p) :=
  inferInstanceAs (Decidable
    (p.Perm (List.range scores.length) ∧ kth < scores.length ∧
    (∀ i, i ≤ kth →
      scores.getD (p.getD kth 0) 0 ≤ scores.getD (p.getD i 0) 0) ∧
    (∀ j, j < scores.length → kth ≤ j →
      scores.getD (p.getD j 0) 0 ≤ scores.getD (p.getD kth 0) 0)))

/-- Boolean test that a value list is non-increasing. -/
def descSorted : List Int → Bool
  | [] => true
  | [_] => true
  | a :: b :: t => decide (b ≤ a) && descSorted (b :: t)

/-- Specification of `np.argsort` applied to negated values: a permutation of
the value indices along which the values are non-increasing.  The numpy sort
is not stable by default, so equal values may come in any order. -/
def ArgsortDescSpec (vals : List Int) (q : List Nat) : Prop :=
  q.Perm (List.range vals.length) ∧
  descSorted (q.map (fun j => vals.getD j 0)) = true

instance (vals : List Int) (q : List Nat) :
    Decidable (ArgsortDescSpec vals q) :=
  inferInstanceAs (Decidable
    (q.Perm (List.range vals.length) ∧
    descSorted (q.map (fun j => vals.getD j 0)) = true))

/-- Top-k selection of `query_hdf5` (lines 433-438): `argpartition` keeps some
`k` candidate positions with maximal scores, then `argsort` orders exactly
those `k` by descending score.  For `k = 0` numpy wraps the pivot `-1` to the
last position; the selected index list is empty either way, so the `Nat`
truncation `k - 1 = 0` is observationally equivalent. -/
def TopKSel (scores : List Int) (k : Nat) (idx : List Nat) : Prop :=
  ∃ p q, ArgpartTopSpec scores (k - 1) p ∧
    ArgsortDescSpec ((p.take k).map (fun j => scores.getD j 0)) q ∧
    idx = q.map (fun j => (p.take k).getD j 0)

/-- One query result record. -/
structure QResult where
  rank : Nat
  score : Int
  row : Nat
  work_id : Nat
  work_title : String
  text : String
deriving DecidableEq

/-- Title lookup for a work id (lines 445-446), with the fallback label. -/
def lookupTitle (works_idx : List WorkRec) (wid : Nat) : String :=
  match works_idx.find? (fun w => w.work_id == wid) with
  | some w => w.title
  | none => "work_id=" ++ toString wid

/-- Result assembly loop of `query_hdf5` (lines 440-456); an out-of-bounds
dataset access raises, modelled by `none`. -/
def assembleResults (rows : List Nat) (scores : List Int)
    (work_ids : List Nat) (texts : List String) (works_idx : List WorkRec)
    (idx : List Nat) : Option (List QResult) :=
  idx.enum.mapM (fun e =>
    (rows[e.2]?).bind (fun row =>
      (scores[e.2]?).bind (fun sc =>
        (work_ids[row]?).bind (fun wid =>
          (texts[row]?).map (fun tx =>
            ⟨e.1 + 1, sc, row, wid, lookupTitle works_idx wid, tx⟩)))))

/-- Outcome relation for `query_hdf5` (shakespeare_hdf5_vectors.py, lines
390-457).  The opened store is passed as its datasets; `qv` stands for the
encoded query text; `out = none` models a raised exception.  Indexing past a
dataset and a dimension mismatch in the block matmul raise; `np.argpartition`
raises on an empty candidate set because every pivot is out of bounds there;
the selection step is specified relationally because the numpy order on tied
scores is not determined by the source. -/
def query_hdf5 (embs : List (List Int)) (texts : List String)
    (work_ids : List Nat) (works_idx : List WorkRec) (qv : List Int)
    (top_k : Nat) (work_filter : Option String)
    (out : Option (List QResult)) : Prop :=
  match candidateRows embs.length works_idx work_filter with
  | none => out = none
  | some rows =>
    if ∀ r ∈ rows, r < embs.length ∧ (embs.getD r []).length = qv.length then
      if rows.length = 0 then out = none
      else
        ∃ idx,
          TopKSel (blockedScores embs qv 131072 rows) (min top_k rows.length)
            idx ∧
          out = assembleResults rows (blockedScores embs qv 131072 rows)
            work_ids texts works_idx idx
    else out = none

/-- Insertion into a descending-by-score list. -/
def insertByScore (x : Nat × Int) : List (Nat × Int) → List (Nat × Int)
  | [] => [x]
  | y :: ys => if y.2 ≤ x.2 then x :: y :: ys else y :: insertByScore x ys

/-- Full descending insertion sort by score. -/
def sortDescByScore (l : List (Nat × Int)) : List (Nat × Int) :=
  l.foldr insertByScore []

/-- Spec-side brute force for the top-k contract: score all candidate rows at
once, fully sort the `(row, score)` pairs by descending score, keep the first
`k`. -/
def bruteForceTopK (embs : List (List Int)) (qv : List Int) (rows : List Nat)
    (k : Nat) : List (Nat × Int) :=
  (sortDescByScore (rows.map (fun r => (r, scoreAt embs qv r)))).take k

/-!  Generic list and arithmetic lemmas. -/

theorem map_getD_range {α : Type} (l : List α) (d : α) :
    (List.range l.length).map (fun i => l.getD i d) = l := by
  induction l with
  | nil => rfl
  | cons a t ih =>
    rw [List.length_cons, List.range_succ_eq_map, List.map_cons, List.map_map]
    have hmap : List.map ((fun i => (a :: t).getD i d) ∘ Nat.succ)
        (List.range t.length) = List.map (fun i => t.getD i d)
        (List.range t.length) := by
      apply List.map_congr_left
      intro i _
      simp [Function.comp, List.getD_cons_succ]
    simp only [List.getD_cons_zero]
    rw [hmap, ih]

theorem getD_map {α β : Type} (f : α → β) (l : List α) (i : Nat) (d : β)
    (d' : α) (h : i < l.length) : (l.map f).getD i d = f (l.getD i d') := by
  simp [List.getD_eq_getElem?_getD, List.getElem?_map, List.getElem?_eq_getElem h]

theorem take_min {α : Type} (l : List α) (a : Nat) :
    l.take a = l.take (min a l.length) := by
  rcases le_total a l.length with h | h
  · rw [min_eq_left h]
  · rw [min_eq_right h, List.take_length, List.take_of_length_le h]

theorem range'_eq_map_range (m : Nat) :
    ∀ (q s : Nat), List.range' s q m = (List.range q).map (fun i => s + i * m) := by
  intro q
  induction q with
  | zero => intro s; rfl
  | succ q ih =>
    intro s
    rw [List.range'_succ, ih (s + m), List.range_succ_eq_map, List.map_cons,
      List.map_map]
    simp only [Function.comp, Nat.zero_mul, Nat.add_zero]
    congr 1
    apply List.map_congr_left
    intro i _
    simp only [Function.comp, Nat.succ_eq_add_one]
    ring

theorem ceil_mul_ge (n b : Nat) (hb : 0 < b) : n ≤ ((n + b - 1) / b) * b := by
  have h := Nat.div_add_mod (n + b - 1) b
  have h2 : (n + b - 1) % b < b := Nat.mod_lt _ hb
  have h3 : b * ((n + b - 1) / b) = ((n + b - 1) / b) * b := Nat.mul_comm _ _
  omega

theorem ceil_index_lt (n m i : Nat) (hm : 0 < m) (hi : i < (n + m - 1) / m) :
    i * m < n := by
  have h1 : (i + 1) * m ≤ ((n + m - 1) / m) * m :=
    Nat.mul_le_mul_right m (by omega)
  have h2 : ((n + m - 1) / m) * m ≤ n + m - 1 := Nat.div_mul_le_self _ _
  have h3 : (i + 1) * m = i * m + m := by ring
  have h4 : 1 * m ≤ ((n + m - 1) / m) * m :=
    Nat.mul_le_mul_right m (by omega)
  omega

theorem range'_flatMap_tile {α : Type} (b : Nat) :
    ∀ (m s : Nat) (l : List α), l.length ≤ s + m * b →
      (List.range' s m b).flatMap (fun i => (l.drop i).take b) = l.drop s := by
  intro m
  induction m with
  | zero =>
    intro s l h
    have hs : l.length ≤ s := by
      have : 0 * b = 0 := by ring
      omega
    simp [List.drop_eq_nil_of_le hs]
  | succ m ih =>
    intro s l h
    rw [List.range'_succ, List.flatMap_cons]
    have hcov : l.length ≤ s + b + m * b := by
      have : (m + 1) * b = m * b + b := by ring
      omega
    rw [ih (s + b) l hcov]
    have hdd : l.drop (s + b) = (l.drop s).drop b := by
      rw [List.drop_drop, Nat.add_comm]
    rw [hdd, List.take_append_drop]

theorem blockedScores_eq_map (embs : List (List Int)) (qv : List Int)
    (block : Nat) (hb : 0 < block) (rows : List Nat) :
    blockedScores embs qv block rows = rows.map (scoreAt embs qv) := by
  unfold blockedScores pyRange
  rw [if_neg (by omega)]
  rw [show (List.range' 0 ((rows.length + block - 1) / block) block).flatMap
      (fun i => ((rows.drop i).take block).map (scoreAt embs qv)) =
      ((List.range' 0 ((rows.length + block - 1) / block) block).flatMap
      (fun i => (rows.drop i).take block)).map (scoreAt embs qv) from
    (List.map_flatMap _ _ _).symm]
  rw [range'_flatMap_tile block _ 0 rows
    (by simpa using ceil_mul_ge rows.length block hb), List.drop_zero]

/-!  Window characterization of the two chunkers. -/

theorem cttLoop_map_offs (decode : List Nat → String) (ids : List Nat)
    (n max_tokens : Nat) (starts : List Nat) :
    (cttLoop decode ids n max_tokens starts).map (fun c => (c.2.1, c.2.2)) =
      offsLoop n max_tokens starts := by
  induction starts with
  | nil => rfl
  | cons s rest ih =>
    simp only [cttLoop, offsLoop]
    by_cases h : n ≤ min (s + max_tokens) n
    · simp [h]
    · simp [h, ih]

theorem specL_step (n max_tokens step s : Nat) (hstep : 0 < step)
    (h : s + max_tokens < n) :
    specL n max_tokens step s = specL n max_tokens step (s + step) + 1 := by
  unfold specL
  rw [if_neg (by omega)]
  by_cases h2 : n ≤ s + step + max_tokens
  · rw [if_pos h2]
    have hr : n - s - max_tokens + step - 1 = (n - s - max_tokens - 1) + step := by
      omega
    rw [hr, Nat.add_div_right _ hstep, Nat.div_eq_of_lt (by omega)]
  · rw [if_neg h2]
    have hr : n - s - max_tokens + step - 1 =
        (n - (s + step) - max_tokens + step - 1) + step := by omega
    rw [hr, Nat.add_div_right _ hstep]

theorem offsLoop_cons (n max_tokens s : Nat) (rest : List Nat) :
    offsLoop n max_tokens (s :: rest) =
      (s, min (s + max_tokens) n) ::
        (if n ≤ min (s + max_tokens) n then []
         else offsLoop n max_tokens rest) := rfl

theorem offsLoop_range' (n max_tokens step : Nat) (hstep : 0 < step)
    (hsm : step ≤ max_tokens) :
    ∀ (m s : Nat), s < n → n ≤ s + m * step + max_tokens →
      offsLoop n max_tokens (List.range' s (m + 1) step) =
        (List.range (specL n max_tokens step s + 1)).map
          (fun i => (s + i * step, min (s + i * step + max_tokens) n)) := by
  intro m
  induction m with
  | zero =>
    intro s hs hcov
    have he : n ≤ s + max_tokens := by
      have h0 : 0 * step = 0 := by ring
      omega
    rw [List.range'_one, offsLoop_cons]
    rw [if_pos (by omega : n ≤ min (s + max_tokens) n)]
    have hL : specL n max_tokens step s = 0 := by
      unfold specL
      rw [if_pos he]
    rw [hL]
    have h1 : List.range (0 + 1) = [0] := rfl
    rw [h1, List.map_cons, List.map_nil]
    simp
  | succ m ih =>
    intro s hs hcov
    rw [List.range'_succ, offsLoop_cons]
    by_cases hbreak : n ≤ s + max_tokens
    · rw [if_pos (by omega : n ≤ min (s + max_tokens) n)]
      have hL : specL n max_tokens step s = 0 := by
        unfold specL
        rw [if_pos hbreak]
      rw [hL]
      have h1 : List.range (0 + 1) = [0] := rfl
      rw [h1, List.map_cons, List.map_nil]
      simp
    · rw [if_neg (by omega : ¬ n ≤ min (s + max_tokens) n)]
      have hcov2 : n ≤ (s + step) + m * step + max_tokens := by
        have hdist : (m + 1) * step = m * step + step := by ring
        omega
      rw [ih (s + step) (by omega) hcov2]
      rw [specL_step n max_tokens step s hstep (by omega)]
      nth_rewrite 2 [List.range_succ_eq_map]
      rw [List.map_cons, List.map_map]
      congr 1
      · simp
      · apply List.map_congr_left
        intro i _
        simp only [Function.comp, Nat.succ_eq_add_one]
        have harith : s + (i + 1) * step = s + step + i * step := by ring
        rw [harith]

theorem cttWindowsChar (decode : List Nat → String) (ids : List Nat)
    (max_tokens stride : Nat) (hmax : 0 < max_tokens)
    (hs : stride < max_tokens) :
    (chunk_text_by_tokens decode ids max_tokens stride).map
      (fun l => l.map (fun c => (c.2.1, c.2.2))) =
      some (claimWindows ids.length max_tokens (max_tokens - stride)) := by
  unfold chunk_text_by_tokens
  rw [if_pos ⟨hmax, hs⟩, Option.map_some']
  rw [cttLoop_map_offs]
  have hstep : 0 < max_tokens - stride := by omega
  have hsm : max_tokens - stride ≤ max_tokens := by omega
  by_cases hn : ids.length = 0
  · unfold pyRange claimWindows
    rw [if_neg (by omega), if_pos hn, hn]
    rw [show (0 + (max_tokens - stride) - 1) / (max_tokens - stride) = 0 from
      Nat.div_eq_of_lt (by omega)]
    rfl
  · have hq : 1 ≤ (ids.length + (max_tokens - stride) - 1) / (max_tokens - stride) := by
      rw [Nat.le_div_iff_mul_le hstep]
      omega
    obtain ⟨m, hm⟩ : ∃ m,
        (ids.length + (max_tokens - stride) - 1) / (max_tokens - stride) = m + 1 :=
      ⟨(ids.length + (max_tokens - stride) - 1) / (max_tokens - stride) - 1,
        by omega⟩
    unfold pyRange
    rw [if_neg (by omega), hm]
    have hcov : ids.length ≤ 0 + m * (max_tokens - stride) + max_tokens := by
      have h1 := ceil_mul_ge ids.length (max_tokens - stride) hstep
      rw [hm] at h1
      have h2 : (m + 1) * (max_tokens - stride) =
          m * (max_tokens - stride) + (max_tokens - stride) := by ring
      omega
    rw [offsLoop_range' ids.length max_tokens (max_tokens - stride) hstep hsm m 0
      (by omega) hcov]
    unfold claimWindows
    rw [if_neg hn]
    simp

theorem cbtLoop_cons (decode : List Nat → String) (ids : List Nat)
    (max_tokens s : Nat) (rest : List Nat) :
    cbtLoop decode ids max_tokens (s :: rest) =
      if ((ids.drop s).take max_tokens).isEmpty then []
      else
        (if pyStrip (decode ((ids.drop s).take max_tokens)) = "" then []
         else [pyStrip (decode ((ids.drop s).take max_tokens))]) ++
          cbtLoop decode ids max_tokens rest := rfl

theorem cbtLoop_filterMap (decode : List Nat → String) (ids : List Nat)
    (max_tokens : Nat) (hmax : 0 < max_tokens) :
    ∀ starts : List Nat, (∀ s ∈ starts, s < ids.length) →
      cbtLoop decode ids max_tokens starts =
        starts.filterMap
          (fun s => stripNE (decode ((ids.drop s).take max_tokens))) := by
  intro starts
  induction starts with
  | nil => intro _; rfl
  | cons s rest ih =>
    intro hmem
    have hlt : s < ids.length := hmem s (by simp)
    have hlen : 0 < ((ids.drop s).take max_tokens).length := by
      rw [List.length_take, List.length_drop]
      omega
    have hne : ¬ ((ids.drop s).take max_tokens).isEmpty = true := by
      rw [List.isEmpty_iff]
      intro hx
      rw [hx] at hlen
      simp at hlen
    rw [cbtLoop_cons, if_neg hne, List.filterMap_cons,
      ih (fun x hx => hmem x (List.mem_cons_of_mem _ hx))]
    by_cases hstr : pyStrip (decode ((ids.drop s).take max_tokens)) = ""
    · have hsn : stripNE (decode ((ids.drop s).take max_tokens)) = none := by
        unfold stripNE
        rw [if_pos hstr]
      rw [if_pos hstr, hsn]
      rfl
    · have hsn : stripNE (decode ((ids.drop s).take max_tokens)) =
          some (pyStrip (decode ((ids.drop s).take max_tokens))) := by
        unfold stripNE
        rw [if_neg hstr]
      rw [if_neg hstr, hsn]
      rfl

theorem pyRange_mem_lt (n m : Nat) (hm : 0 < m) :
    ∀ s ∈ pyRange n m, s < n := by
  intro s hs
  unfold pyRange at hs
  rw [if_neg (by omega)] at hs
  rw [List.mem_range'] at hs
  obtain ⟨i, hi, rfl⟩ := hs
  have := ceil_index_lt n m i hm hi
  have hc : m * i = i * m := Nat.mul_comm _ _
  omega

/-!  Claims C2, C3, C4, C10: the chunkers. -/

/-- C2, counterexample: for token count 10, `max_tokens = 8`, `overlap = 4`
(step 4), the spec-side window list stops after the window `[4,10)` whose end
reaches 10, giving 2 windows, but `chunk_by_tokens` has no such break and
emits 3 chunks — a dangling window `[8,10)` starting inside the last claimed
window is also emitted (the constant decode makes every window one chunk). -/
theorem c2_dangling_window_cex :
    (chunk_by_tokens (fun _ => "x") (List.range 10) 8 4).map List.length =
      some 3 ∧
    (claimWindows 10 8 4).length = 2 := ⟨rfl, rfl⟩

/-- C2 (amended): `chunk_text_by_tokens` satisfies the claim exactly — under
the precondition `0 < max_tokens` and `overlap < max_tokens`, the emitted
windows are exactly `[i*step, min(i*step + max_tokens, n))` with
`step = max_tokens - overlap` and emission stops with the first window whose
end reaches `n` (the content of `claimWindows`); `chunk_by_tokens` instead
keeps emitting a window for every multiple of `step` below `n`, as the
counterexample shows. -/
theorem c2_ctt_windows (decode : List Nat → String) (ids : List Nat)
    (max_tokens stride : Nat) (hmax : 0 < max_tokens)
    (hs : stride < max_tokens) :
    (chunk_text_by_tokens decode ids max_tokens stride).map
      (fun l => l.map (fun c => (c.2.1, c.2.2))) =
      some (claimWindows ids.length max_tokens (max_tokens - stride)) :=
  cttWindowsChar decode ids max_tokens stride hmax hs

/-- C2, witness: the amended theorem evaluated at a concrete input. -/
theorem c2_ctt_windows_witness :
    (chunk_text_by_tokens (fun _ => "y") (List.range 5) 3 1).map
      (fun l => l.map (fun c => (c.2.1, c.2.2))) =
      some (claimWindows (List.range 5).length 3 (3 - 1)) :=
  c2_ctt_windows (fun _ => "y") (List.range 5) 3 1 (by decide) (by decide)

/-- C3: chunking any 300-token sequence by `chunk_text_by_tokens` with
`max_tokens = 256` and `overlap = 64` yields exactly the two windows
`[0,256)` and `[192,300)` (step 192), and chunking an empty token sequence
yields an empty list. -/
theorem c3_concrete_chunking (decode : List Nat → String) (ids : List Nat)
    (h : ids.length = 300) :
    (chunk_text_by_tokens decode ids 256 64).map
      (fun l => l.map (fun c => (c.2.1, c.2.2))) =
      some [(0, 256), (192, 300)] ∧
    chunk_text_by_tokens decode [] 256 64 = some [] := by
  constructor
  · rw [cttWindowsChar decode ids 256 64 (by omega) (by omega), h]
    rfl
  · rfl

/-- C3, witness: the theorem evaluated at the token sequence `0, ..., 299`. -/
theorem c3_concrete_chunking_witness :
    (chunk_text_by_tokens (fun _ => "") (List.range 300) 256 64).map
      (fun l => l.map (fun c => (c.2.1, c.2.2))) =
      some [(0, 256), (192, 300)] ∧
    chunk_text_by_tokens (fun _ => "") [] 256 64 = some [] :=
  c3_concrete_chunking (fun _ => "") (List.range 300) (by simp)

/-- C4, counterexample: two token sequences of equal length 1 for which
`chunk_by_tokens` emits different chunk counts with the same deterministic
decoder — the window whose decoded text strips to whitespace is dropped, so
the emitted chunk count depends on the decoded content, not only on the token
count. -/
theorem c4_content_dependence_cex :
    chunk_by_tokens (fun w => if w.contains 0 then " " else "a") [0] 256 32 =
      some [] ∧
    chunk_by_tokens (fun w => if w.contains 0 then " " else "a") [1] 256 32 =
      some ["a"] ∧
    ([0] : List Nat).length = ([1] : List Nat).length := ⟨rfl, rfl, rfl⟩

/-- C4 (amended): for `chunk_text_by_tokens` the claim holds — the window
offsets, hence the emitted chunk count, are a function of the token count and
the parameters only, identical for any two equally long token sequences and
any two decoders; `chunk_by_tokens` computes its window boundaries from the
token count only but drops windows whose decoded text strips to empty, so its
emitted chunk count can depend on decoded content (see the counterexample). -/
theorem c4_offsets_content_free (dec1 dec2 : List Nat → String)
    (ids1 ids2 : List Nat) (max_tokens stride : Nat)
    (h : ids1.length = ids2.length) :
    (chunk_text_by_tokens dec1 ids1 max_tokens stride).map
      (fun l => l.map (fun c => (c.2.1, c.2.2))) =
      (chunk_text_by_tokens dec2 ids2 max_tokens stride).map
        (fun l => l.map (fun c => (c.2.1, c.2.2))) := by
  unfold chunk_text_by_tokens
  by_cases hpre : 0 < max_tokens ∧ stride < max_tokens
  · rw [if_pos hpre, if_pos hpre, Option.map_some', Option.map_some',
      cttLoop_map_offs, cttLoop_map_offs, h]
  · rw [if_neg hpre, if_neg hpre]

/-- C4, witness: the amended theorem evaluated at two concrete token
sequences of equal length with different decoders. -/
theorem c4_offsets_content_free_witness :
    (chunk_text_by_tokens (fun _ => "a") [5, 6, 7] 2 1).map
      (fun l => l.map (fun c => (c.2.1, c.2.2))) =
      (chunk_text_by_tokens (fun w => if w.contains 5 then " " else "b")
        [8, 9, 10] 2 1).map (fun l => l.map (fun c => (c.2.1, c.2.2))) :=
  c4_offsets_content_free (fun _ => "a")
    (fun w => if w.contains 5 then " " else "b") [5, 6, 7] [8, 9, 10] 2 1
    (by decide)

/-- C10: called outside the stated precondition with
`overlap ≥ max_tokens > 0`, `chunk_by_tokens` neither raises nor loops — the
step silently falls back to `max_tokens`, the visited windows are the
non-overlapping consecutive windows `[i*max_tokens, min((i+1)*max_tokens, n))`
covering the whole sequence, and the finite chunk list is the stripped decoded
text of those windows with empty ones dropped. -/
theorem c10_overlap_fallback (decode : List Nat → String) (ids : List Nat)
    (max_tokens overlap : Nat) (hmax : 0 < max_tokens)
    (hov : max_tokens ≤ overlap) :
    chunk_by_tokens decode ids max_tokens overlap =
      some ((cbtAllWindows ids.length max_tokens).filterMap
        (fun w => stripNE (decode ((ids.drop w.1).take (w.2 - w.1))))) ∧
    (cbtAllWindows ids.length max_tokens).Chain' (fun a b => a.2 ≤ b.1) ∧
    ∀ w ∈ cbtAllWindows ids.length max_tokens,
      w.1 < w.2 ∧ w.2 ≤ ids.length := by
  have hstep : ¬ overlap < max_tokens := by omega
  refine ⟨?_, ?_, ?_⟩
  · by_cases hids : ids.isEmpty = true
    · have hnil : ids = [] := List.isEmpty_iff.mp hids
      subst hnil
      have hw : cbtAllWindows ([] : List Nat).length max_tokens = [] := by
        unfold cbtAllWindows
        rw [List.length_nil,
          show (0 + max_tokens - 1) / max_tokens = 0 from
            Nat.div_eq_of_lt (by omega)]
        rfl
      rw [hw]
      rfl
    · unfold chunk_by_tokens
      rw [if_neg hids, if_neg hstep,
        if_neg (by omega : ¬ max_tokens = 0)]
      rw [cbtLoop_filterMap decode ids max_tokens hmax _
        (pyRange_mem_lt ids.length max_tokens hmax)]
      unfold pyRange cbtAllWindows
      rw [if_neg (by omega : ¬ max_tokens = 0)]
      rw [range'_eq_map_range max_tokens
        ((ids.length + max_tokens - 1) / max_tokens) 0]
      rw [List.filterMap_map, List.filterMap_map]
      refine congrArg some ?_
      refine congrArg (fun fn => List.filterMap fn
        (List.range ((ids.length + max_tokens - 1) / max_tokens))) ?_
      funext i
      simp only [Function.comp, Nat.zero_add]
      congr 2
      rw [take_min]
      congr 1
      rw [List.length_drop]
      omega
  · unfold cbtAllWindows
    rw [List.chain'_map]
    cases hq : (ids.length + max_tokens - 1) / max_tokens with
    | zero => simp
    | succ t =>
      rw [List.chain'_range_succ]
      intro i hi
      show min (i * max_tokens + max_tokens) ids.length ≤
        Nat.succ i * max_tokens
      have hd : Nat.succ i * max_tokens = i * max_tokens + max_tokens := by
        simp only [Nat.succ_eq_add_one]
        ring
      omega
  · intro w hw
    unfold cbtAllWindows at hw
    rw [List.mem_map] at hw
    obtain ⟨i, hi, rfl⟩ := hw
    rw [List.mem_range] at hi
    have hlt := ceil_index_lt ids.length max_tokens i hmax hi
    refine ⟨?_, ?_⟩
    · show i * max_tokens < min (i * max_tokens + max_tokens) ids.length
      omega
    · show min (i * max_tokens + max_tokens) ids.length ≤ ids.length
      omega

/-- C10, witness: the theorem evaluated at a concrete out-of-precondition
call (`max_tokens = 3`, `overlap = 5`, seven tokens). -/
theorem c10_overlap_fallback_witness :
    chunk_by_tokens (fun _ => "w") (List.range 7) 3 5 =
      some ((cbtAllWindows (List.range 7).length 3).filterMap
        (fun w => stripNE ((fun _ => "w")
          (((List.range 7).drop w.1).take (w.2 - w.1))))) ∧
    (cbtAllWindows (List.range 7).length 3).Chain' (fun a b => a.2 ≤ b.1) ∧
    ∀ w ∈ cbtAllWindows (List.range 7).length 3,
      w.1 < w.2 ∧ w.2 ≤ (List.range 7).length :=
  c10_overlap_fallback (fun _ => "w") (List.range 7) 3 5 (by decide)
    (by decide)

/-!  Claim C5: the range-index builder. -/

theorem chainFrom_lb : ∀ (c : Nat) (l : List (Nat × Nat)), chainFrom c l →
    ∀ p ∈ l, c ≤ p.1 := by
  intro c l
  induction l generalizing c with
  | nil =>
    intro _ p hp
    simp at hp
  | cons a rest ih =>
    intro h p hp
    obtain ⟨ha1, ha2, ha3⟩ := h
    rcases List.mem_cons.mp hp with rfl | hp'
    · omega
    · have := ih a.2 ha3 p hp'
      omega

theorem chainFrom_mem_lt : ∀ (c : Nat) (l : List (Nat × Nat)), chainFrom c l →
    ∀ p ∈ l, p.1 < p.2 := by
  intro c l
  induction l generalizing c with
  | nil =>
    intro _ p hp
    simp at hp
  | cons a rest ih =>
    intro h p hp
    obtain ⟨ha1, ha2, ha3⟩ := h
    rcases List.mem_cons.mp hp with rfl | hp'
    · omega
    · exact ih a.2 ha3 p hp'

theorem chainFrom_pairwise : ∀ (c : Nat) (l : List (Nat × Nat)),
    chainFrom c l → l.Pairwise (fun a b => a.2 ≤ b.1) := by
  intro c l
  induction l generalizing c with
  | nil => intro _; exact List.Pairwise.nil
  | cons a rest ih =>
    intro h
    obtain ⟨ha1, ha2, ha3⟩ := h
    exact List.Pairwise.cons (fun b hb => chainFrom_lb a.2 rest ha3 b hb)
      (ih a.2 ha3)

theorem chainFrom_cover : ∀ (c : Nat) (l : List (Nat × Nat)), chainFrom c l →
    ∀ r, c ≤ r → r < chainEnd c l →
      ∃! p, p ∈ l ∧ p.1 ≤ r ∧ r < p.2 := by
  intro c l
  induction l generalizing c with
  | nil =>
    intro _ r hcr hre
    exact absurd hre (by show ¬ r < c; omega)
  | cons a rest ih =>
    intro h r hcr hre
    obtain ⟨ha1, ha2, ha3⟩ := h
    have hend : chainEnd c (a :: rest) = chainEnd a.2 rest := rfl
    by_cases hr : r < a.2
    · refine ⟨a, ⟨List.mem_cons_self a rest, by omega, hr⟩, ?_⟩
      rintro p ⟨hp, hp1, hp2⟩
      rcases List.mem_cons.mp hp with rfl | hp'
      · rfl
      · have hlb := chainFrom_lb a.2 rest ha3 p hp'
        omega
    · rw [hend] at hre
      obtain ⟨p, hp, hup⟩ := ih a.2 ha3 r (by omega) hre
      refine ⟨p, ⟨List.mem_cons_of_mem _ hp.1, hp.2⟩, ?_⟩
      rintro q ⟨hq, hq1, hq2⟩
      rcases List.mem_cons.mp hq with rfl | hq'
      · omega
      · exact hup q ⟨hq', hq1, hq2⟩

theorem chainFrom_append_one : ∀ (c e m : Nat) (l : List (Nat × Nat)),
    chainFrom c l → chainEnd c l = e → 0 < m →
      chainFrom c (l ++ [(e, e + m)]) ∧
      chainEnd c (l ++ [(e, e + m)]) = e + m := by
  intro c e m l
  induction l generalizing c with
  | nil =>
    intro _ he hm
    have hce : c = e := he
    refine ⟨⟨by omega, by omega, trivial⟩, rfl⟩
  | cons a rest ih =>
    intro h he hm
    obtain ⟨ha1, ha2, ha3⟩ := h
    have hrec := ih a.2 ha3 he hm
    exact ⟨⟨ha1, ha2, hrec.1⟩, hrec.2⟩

theorem buildStep_invariant (f : String → List String) (st : BuildSt)
    (wk : Nat × String × String)
    (h1 : chainFrom 0 (st.works_index.map (fun w => (w.start_row, w.end_row))))
    (h2 : chainEnd 0 (st.works_index.map (fun w => (w.start_row, w.end_row))) =
      st.row_cursor)
    (h3 : st.row_cursor = st.all_chunks.length)
    (h4 : st.all_work_ids.length = st.all_chunks.length) :
    chainFrom 0 ((buildStep f st wk).works_index.map
      (fun w => (w.start_row, w.end_row))) ∧
    chainEnd 0 ((buildStep f st wk).works_index.map
      (fun w => (w.start_row, w.end_row))) = (buildStep f st wk).row_cursor ∧
    (buildStep f st wk).row_cursor = (buildStep f st wk).all_chunks.length ∧
    (buildStep f st wk).all_work_ids.length =
      (buildStep f st wk).all_chunks.length := by
  unfold buildStep
  by_cases hc : f wk.2.2 = []
  · rw [if_pos hc]
    exact ⟨h1, h2, h3, h4⟩
  · rw [if_neg hc]
    simp only [List.map_append, List.map_cons, List.map_nil]
    have hm : 0 < (f wk.2.2).length := List.length_pos.mpr hc
    have hch := chainFrom_append_one 0 st.row_cursor (f wk.2.2).length _ h1 h2 hm
    refine ⟨hch.1, hch.2, ?_, ?_⟩
    · simp only [List.length_append]
      omega
    · simp only [List.length_append, List.length_replicate]
      omega

theorem buildFold_invariant (f : String → List String) :
    ∀ (l : List (Nat × String × String)) (st : BuildSt),
      chainFrom 0 (st.works_index.map (fun w => (w.start_row, w.end_row))) →
      chainEnd 0 (st.works_index.map (fun w => (w.start_row, w.end_row))) =
        st.row_cursor →
      st.row_cursor = st.all_chunks.length →
      st.all_work_ids.length = st.all_chunks.length →
      chainFrom 0 ((l.foldl (buildStep f) st).works_index.map
        (fun w => (w.start_row, w.end_row))) ∧
      chainEnd 0 ((l.foldl (buildStep f) st).works_index.map
        (fun w => (w.start_row, w.end_row))) =
        (l.foldl (buildStep f) st).row_cursor ∧
      (l.foldl (buildStep f) st).row_cursor =
        (l.foldl (buildStep f) st).all_chunks.length ∧
      (l.foldl (buildStep f) st).all_work_ids.length =
        (l.foldl (buildStep f) st).all_chunks.length := by
  intro l
  induction l with
  | nil =>
    intro st h1 h2 h3 h4
    exact ⟨h1, h2, h3, h4⟩
  | cons wk rest ih =>
    intro st h1 h2 h3 h4
    rw [List.foldl_cons]
    have hs := buildStep_invariant f st wk h1 h2 h3 h4
    exact ih (buildStep f st wk) hs.1 hs.2.1 hs.2.2.1 hs.2.2.2

theorem buildFold_sizes (f : String → List String) :
    ∀ (l : List (Nat × String × String)) (st : BuildSt),
      ((l.foldl (buildStep f) st).works_index).map
          (fun w => w.end_row - w.start_row) =
        st.works_index.map (fun w => w.end_row - w.start_row) ++
          ((l.map (fun wk => (f wk.2.2).length)).filter (fun m => m != 0)) := by
  intro l
  induction l with
  | nil =>
    intro st
    simp
  | cons wk rest ih =>
    intro st
    rw [List.foldl_cons, ih]
    unfold buildStep
    by_cases hc : f wk.2.2 = []
    · rw [if_pos hc]
      have hz : (f wk.2.2).length = 0 := by
        rw [hc]
        rfl
      simp [List.filter_cons, hz]
    · rw [if_neg hc]
      have hz : (f wk.2.2).length ≠ 0 := by
        simpa [List.length_eq_zero] using hc
      simp only [List.map_append, List.map_cons, List.map_nil,
        List.map_cons, List.filter_cons]
      rw [if_pos (by simpa using hz)]
      rw [List.append_assoc]
      congr 1
      have hsz : st.row_cursor + (f wk.2.2).length - st.row_cursor =
          (f wk.2.2).length := by omega
      rw [hsz, List.singleton_append]

/-- C5: starting from cursor 0, the builder loop of `build_if_missing` emits,
for each work with `m > 0` chunks, exactly one works-index entry
`(cursor, cursor + m)` and advances the cursor by `m`, while works yielding no
chunks emit no entry and leave the cursor unchanged: the recorded ranges are
consecutive from 0, hence sorted by start row and pairwise non-overlapping;
every assigned row below the final cursor is covered by exactly one range; the
entry sizes are exactly the nonzero per-work chunk counts in work order; and
the final cursor equals the number of stored rows. -/
theorem c5_range_index_invariants (encode : String → List Nat)
    (decode : List Nat → String) (works : List (String × String)) :
    chainFrom 0 ((buildWorksState encode decode works).works_index.map
      (fun w => (w.start_row, w.end_row))) ∧
    ((buildWorksState encode decode works).works_index.map
      (fun w => (w.start_row, w.end_row))).Pairwise (fun a b => a.2 ≤ b.1) ∧
    ((buildWorksState encode decode works).works_index.map
      (fun w => (w.start_row, w.end_row))).Pairwise (fun a b => a.1 < b.1) ∧
    (∀ p ∈ (buildWorksState encode decode works).works_index.map
      (fun w => (w.start_row, w.end_row)), p.1 < p.2) ∧
    (∀ r < (buildWorksState encode decode works).row_cursor,
      ∃! p, p ∈ (buildWorksState encode decode works).works_index.map
        (fun w => (w.start_row, w.end_row)) ∧ p.1 ≤ r ∧ r < p.2) ∧
    ((buildWorksState encode decode works).works_index.map
      (fun w => w.end_row - w.start_row) =
      (works.map (fun w => (chunksOfBody encode decode w.2).length)).filter
        (fun m => m != 0)) ∧
    (buildWorksState encode decode works).row_cursor =
      (buildWorksState encode decode works).all_chunks.length := by
  unfold buildWorksState
  obtain ⟨hchain, hend, hlen, _⟩ := buildFold_invariant
    (chunksOfBody encode decode) works.enum ⟨[], [], [], 0⟩ trivial rfl rfl rfl
  refine ⟨hchain, chainFrom_pairwise 0 _ hchain, ?_,
    chainFrom_mem_lt 0 _ hchain, ?_, ?_, hlen⟩
  · refine (chainFrom_pairwise 0 _ hchain).imp_of_mem ?_
    intro a b ha hb hab
    have := chainFrom_mem_lt 0 _ hchain a ha
    omega
  · intro r hr
    rw [← hend] at hr
    exact chainFrom_cover 0 _ hchain r (Nat.zero_le r) hr
  · rw [buildFold_sizes (chunksOfBody encode decode) works.enum ⟨[], [], [], 0⟩]
    have henum : List.map Prod.snd works.enum = works := by
      simp [List.enum]
    have hmm : works.enum.map
        (fun wk => (chunksOfBody encode decode wk.2.2).length) =
        works.map (fun w => (chunksOfBody encode decode w.2).length) := by
      rw [show (fun wk : Nat × String × String =>
          (chunksOfBody encode decode wk.2.2).length) =
          ((fun w : String × String =>
            (chunksOfBody encode decode w.2).length) ∘ Prod.snd) from rfl,
        ← List.map_map, henum]
    rw [hmm]
    rfl

/-!  Claims C6 and C9: the store writer and the build orchestrator. -/

/-- C6, counterexample: a one-row store whose single row carries work id 7 is
written successfully although the works index covers only work id 0 — the
claimed document-id coverage check does not exist in the writer.  The input
is non-degenerate (one row, width 1, one index entry), so none of the
zero-length dataset failures applies and the real writer accepts it. -/
theorem c6_coverage_unchecked_cex :
    (write_hdf5 ["a"] [7] [[1]] [⟨0, "W", 0, 1⟩] []).isSome = true ∧
    ∀ w ∈ ([⟨0, "W", 0, 1⟩] : List WorkRec), w.work_id ≠ 7 := by decide

/-- C6 (amended): the writer fails fatally on four of the five claimed
preconditions, though only the first by a deliberate check — the chained
assert enforces the parallel-array length equality; a ragged embedding array
(non-uniform width) fails the 2-D shape unpack; an empty row set, a zero
embedding width D, and additionally an empty works index each fail because
HDF5 rejects the chunked gzip layout on a zero-length data dimension.  The
fifth claimed precondition has no check at all: a work id appearing in the
rows without any covering works-index entry is written without error (see
the counterexample).  The success condition is exactly the conjunction
below, which does not mention coverage.  Separately, `main` of the second
builder script aborts with `RuntimeError` exactly when the chunk list is
empty, before its writer runs. -/
theorem c6_writer_accept_conditions (all_chunks : List String)
    (all_work_ids : List Nat) (embeddings : List (List Int))
    (works_index : List WorkRec) (meta : List (String × String))
    (chunks : List (String × Nat × Nat)) :
    ((write_hdf5 all_chunks all_work_ids embeddings works_index meta).isSome =
      true ↔
      (all_chunks.length = embeddings.length ∧
        embeddings.length = all_work_ids.length ∧
        (∀ e ∈ embeddings, e.length = (embeddings.getD 0 []).length) ∧
        all_chunks.length ≠ 0 ∧
        (embeddings.getD 0 []).length ≠ 0 ∧
        works_index.length ≠ 0)) ∧
    ((chunksProducedCheck chunks).isSome = true ↔ chunks ≠ []) := by
  constructor
  · unfold write_hdf5
    by_cases h1 : all_chunks.length = embeddings.length ∧
        embeddings.length = all_work_ids.length
    · rw [if_pos h1]
      by_cases h2 : ∀ e ∈ embeddings, e.length = (embeddings.getD 0 []).length
      · rw [if_pos h2]
        by_cases h3 : all_chunks.length = 0
        · rw [if_pos h3]
          exact ⟨fun hfalse => by simp at hfalse,
            fun hcon => absurd h3 hcon.2.2.2.1⟩
        · rw [if_neg h3]
          by_cases h4 : (embeddings.getD 0 []).length = 0
          · rw [if_pos h4]
            exact ⟨fun hfalse => by simp at hfalse,
              fun hcon => absurd h4 hcon.2.2.2.2.1⟩
          · rw [if_neg h4]
            by_cases h5 : works_index.length = 0
            · rw [if_pos h5]
              exact ⟨fun hfalse => by simp at hfalse,
                fun hcon => absurd h5 hcon.2.2.2.2.2⟩
            · rw [if_neg h5]
              exact ⟨fun _ => ⟨h1.1, h1.2, h2, h3, h4, h5⟩, fun _ => rfl⟩
      · rw [if_neg h2]
        exact ⟨fun hfalse => by simp at hfalse,
          fun hcon => absurd hcon.2.2.1 h2⟩
    · rw [if_neg h1]
      exact ⟨fun hfalse => by simp at hfalse,
        fun hcon => absurd ⟨hcon.1, hcon.2.1⟩ h1⟩
  · unfold chunksProducedCheck
    by_cases h : chunks.length = 0
    · rw [if_pos h]
      simpa using List.length_eq_zero.mp h
    · rw [if_neg h]
      simpa using fun hx => h (by rw [hx]; rfl)

/-- C9: when the output file already exists and no rebuild is forced,
`build_if_missing` reports success at once and leaves the existing store
untouched, whatever the pipeline would have produced; consequently a second
build without forcing rebuild returns exactly the state left by the first. -/
theorem c9_idempotent_build (f : H5File) (p p2 : Option H5File) :
    build_if_missing (some f) false p = some f ∧
    build_if_missing (build_if_missing (some f) false p) false p2 =
      build_if_missing (some f) false p := by
  have h : ∀ q : Option H5File, build_if_missing (some f) false q = some f := by
    intro q
    unfold build_if_missing
    rw [if_pos ⟨rfl, rfl⟩]
  refine ⟨h p, ?_⟩
  rw [h p, h p2]

/-!  Claims C1 and C8: the query engine. -/

theorem getElem?_eq_some_getD {α : Type} (l : List α) (i : Nat) (d : α)
    (h : i < l.length) : l[i]? = some (l.getD i d) := by
  rw [List.getElem?_eq_getElem h, List.getD_eq_getElem?_getD,
    List.getElem?_eq_getElem h]
  rfl

theorem getD_mem_of_lt {α : Type} (l : List α) (i : Nat) (d : α)
    (h : i < l.length) : l.getD i d ∈ l := by
  rw [List.getD_eq_getElem?_getD, List.getElem?_eq_getElem h]
  exact List.getElem_mem h

theorem getD_eq_get {α : Type} (l : List α) (i : Nat) (d : α)
    (h : i < l.length) : l.getD i d = l.get ⟨i, h⟩ := by
  rw [List.getD_eq_getElem?_getD, List.getElem?_eq_getElem h,
    List.get_eq_getElem]
  rfl

theorem nodup_getD_inj {α : Type} (l : List α) (d : α) (hnd : l.Nodup)
    (a b : Nat) (ha : a < l.length) (hb : b < l.length)
    (h : l.getD a d = l.getD b d) : a = b := by
  rw [getD_eq_get l a d ha, getD_eq_get l b d hb] at h
  have := List.nodup_iff_injective_get.mp hnd h
  exact congrArg Fin.val this

theorem perm_range_mem_lt (p : List Nat) (c : Nat)
    (h : p.Perm (List.range c)) : ∀ x ∈ p, x < c := by
  intro x hx
  exact List.mem_range.mp (h.mem_iff.mp hx)

theorem perm_range_nodup (p : List Nat) (c : Nat)
    (h : p.Perm (List.range c)) : p.Nodup :=
  h.symm.nodup (List.nodup_range c)

theorem perm_range_length (p : List Nat) (c : Nat)
    (h : p.Perm (List.range c)) : p.length = c :=
  h.length_eq.trans (List.length_range c)

theorem perm_map_getD {α : Type} (q : List Nat) (l : List α) (d : α)
    (h : q.Perm (List.range l.length)) :
    (q.map (fun j => l.getD j d)).Perm l := by
  have h1 := h.map (fun j => l.getD j d)
  rw [map_getD_range l d] at h1
  exact h1

theorem topKSel_facts (scores : List Int) (k : Nat) (idx : List Nat)
    (hk : k ≤ scores.length) (h : TopKSel scores k idx) :
    idx.length = k ∧ (∀ i ∈ idx, i < scores.length) ∧ idx.Nodup := by
  obtain ⟨p, q, ⟨hperm, hkth, hpart1, hpart2⟩, ⟨hqperm, hsort⟩, hidx⟩ := h
  have hplen : p.length = scores.length := perm_range_length p _ hperm
  have htlen : (p.take k).length = k := by
    rw [List.length_take]
    omega
  have hvlen : ((p.take k).map (fun j => scores.getD j 0)).length = k := by
    rw [List.length_map, htlen]
  rw [hvlen] at hqperm
  have hidxperm : idx.Perm (p.take k) := by
    have hq2 : q.Perm (List.range (p.take k).length) := by
      rw [htlen]
      exact hqperm
    rw [hidx]
    exact perm_map_getD q (p.take k) 0 hq2
  refine ⟨?_, ?_, ?_⟩
  · rw [hidx, List.length_map, perm_range_length q k hqperm]
  · intro i hi
    have hmem : i ∈ p.take k := hidxperm.mem_iff.mp hi
    exact perm_range_mem_lt p _ hperm i (List.mem_of_mem_take hmem)
  · exact hidxperm.symm.nodup
      ((List.take_sublist k p).nodup (perm_range_nodup p _ hperm))

theorem assemble_from (rows : List Nat) (scores : List Int)
    (work_ids : List Nat) (texts : List String) (works_idx : List WorkRec) :
    ∀ (idx : List Nat) (j : Nat),
      (∀ i ∈ idx, i < rows.length ∧ i < scores.length ∧
        rows.getD i 0 < work_ids.length ∧ rows.getD i 0 < texts.length) →
      (List.enumFrom j idx).mapM (fun e =>
        (rows[e.2]?).bind (fun row =>
          (scores[e.2]?).bind (fun sc =>
            (work_ids[row]?).bind (fun wid =>
              (texts[row]?).map (fun tx =>
                (⟨e.1 + 1, sc, row, wid, lookupTitle works_idx wid, tx⟩ :
                  QResult)))))) =
        some ((List.enumFrom j idx).map (fun e =>
          (⟨e.1 + 1, scores.getD e.2 0, rows.getD e.2 0,
            work_ids.getD (rows.getD e.2 0) 0,
            lookupTitle works_idx (work_ids.getD (rows.getD e.2 0) 0),
            texts.getD (rows.getD e.2 0) ""⟩ : QResult))) := by
  intro idx
  induction idx with
  | nil =>
    intro j _
    rfl
  | cons i rest ih =>
    intro j hmem
    obtain ⟨h1, h2, h3, h4⟩ := hmem i (List.mem_cons_self i rest)
    rw [List.enumFrom_cons, List.map_cons, List.mapM_cons,
      ih (j + 1) (fun x hx => hmem x (List.mem_cons_of_mem _ hx))]
    simp only [getElem?_eq_some_getD rows i 0 h1,
      getElem?_eq_some_getD scores i 0 h2,
      getElem?_eq_some_getD work_ids (rows.getD i 0) 0 h3,
      getElem?_eq_some_getD texts (rows.getD i 0) "" h4,
      Option.some_bind, Option.map_some']
    rfl

theorem assembleResults_eq_some (rows : List Nat) (scores : List Int)
    (work_ids : List Nat) (texts : List String) (works_idx : List WorkRec)
    (idx : List Nat)
    (hmem : ∀ i ∈ idx, i < rows.length ∧ i < scores.length ∧
      rows.getD i 0 < work_ids.length ∧ rows.getD i 0 < texts.length) :
    assembleResults rows scores work_ids texts works_idx idx =
      some (idx.enum.map (fun e =>
        (⟨e.1 + 1, scores.getD e.2 0, rows.getD e.2 0,
          work_ids.getD (rows.getD e.2 0) 0,
          lookupTitle works_idx (work_ids.getD (rows.getD e.2 0) 0),
          texts.getD (rows.getD e.2 0) ""⟩ : QResult))) := by
  unfold assembleResults List.enum
  exact assemble_from rows scores work_ids texts works_idx idx 0 hmem

theorem query_hdf5_some_rows (embs : List (List Int)) (texts : List String)
    (work_ids : List Nat) (works_idx : List WorkRec) (qv : List Int)
    (top_k : Nat) (wf : Option String) (rows : List Nat)
    (out : Option (List QResult))
    (h : candidateRows embs.length works_idx wf = some rows) :
    query_hdf5 embs texts work_ids works_idx qv top_k wf out ↔
      (if ∀ r ∈ rows, r < embs.length ∧ (embs.getD r []).length = qv.length
       then
        if rows.length = 0 then out = none
        else
          ∃ idx,
            TopKSel (blockedScores embs qv 131072 rows)
              (min top_k rows.length) idx ∧
            out = assembleResults rows (blockedScores embs qv 131072 rows)
              work_ids texts works_idx idx
       else out = none) := by
  unfold query_hdf5
  rw [h]

/-- C1, counterexample: on a store whose works index contains the empty range
`[0, 0)` for the work titled Hamlet, a query filtered to that work has zero
candidate rows; the only admissible outcome of `query_hdf5` is a raised
exception (`np.argpartition` rejects every pivot on an empty score array), and
the empty result sequence is not an admissible outcome — contradicting the
claim that a zero-candidate query returns an empty result and no error. -/
theorem c1_empty_range_errors :
    query_hdf5 [[(1 : Int)]] ["t"] [0] [⟨0, "Hamlet", 0, 0⟩] [1] 1
      (some "ham") none ∧
    ¬ query_hdf5 [[(1 : Int)]] ["t"] [0] [⟨0, "Hamlet", 0, 0⟩] [1] 1
      (some "ham") (some []) := by
  constructor
  · exact rfl
  · intro hcontra
    exact Option.noConfusion hcontra

/-- C1 (amended): on a consistent store, a query whose candidate row range is
non-empty and in bounds always returns a result, and its length is exactly
`min(k, candidate_count)`; a query with zero candidate rows instead raises
(see the counterexample), because `np.argpartition` rejects its pivot on an
empty array. -/
theorem c1_result_length (embs : List (List Int)) (texts : List String)
    (work_ids : List Nat) (works_idx : List WorkRec) (qv : List Int)
    (top_k : Nat) (work_filter : Option String) (rows : List Nat)
    (out : Option (List QResult))
    (hrows : candidateRows embs.length works_idx work_filter = some rows)
    (hbound : ∀ r ∈ rows, r < embs.length ∧
      (embs.getD r []).length = qv.length)
    (hne : rows ≠ [])
    (hwid : ∀ r ∈ rows, r < work_ids.length)
    (htxt : ∀ r ∈ rows, r < texts.length)
    (hout : query_hdf5 embs texts work_ids works_idx qv top_k work_filter
      out) :
    ∃ l, out = some l ∧ l.length = min top_k rows.length := by
  rw [query_hdf5_some_rows embs texts work_ids works_idx qv top_k work_filter
    rows out hrows] at hout
  rw [if_pos hbound] at hout
  rw [if_neg (fun hz => hne (List.length_eq_zero.mp hz))] at hout
  obtain ⟨idx, hsel, hassem⟩ := hout
  have hslen : (blockedScores embs qv 131072 rows).length = rows.length := by
    rw [blockedScores_eq_map embs qv 131072 (by omega) rows, List.length_map]
  have hkle : min top_k rows.length ≤
      (blockedScores embs qv 131072 rows).length := by
    omega
  obtain ⟨hlen, hmemlt, hnodup⟩ :=
    topKSel_facts (blockedScores embs qv 131072 rows)
      (min top_k rows.length) idx hkle hsel
  have hmem4 : ∀ i ∈ idx, i < rows.length ∧
      i < (blockedScores embs qv 131072 rows).length ∧
      rows.getD i 0 < work_ids.length ∧ rows.getD i 0 < texts.length := by
    intro i hi
    have h1 := hmemlt i hi
    have h1r : i < rows.length := by omega
    have hrm : rows.getD i 0 ∈ rows := getD_mem_of_lt rows i 0 h1r
    exact ⟨h1r, h1, hwid _ hrm, htxt _ hrm⟩
  rw [assembleResults_eq_some rows _ work_ids texts works_idx idx hmem4]
    at hassem
  refine ⟨_, hassem, ?_⟩
  rw [List.length_map, List.enum_length, hlen]

/-- C1, witness: the amended theorem evaluated on a concrete two-row store
with `k = 3`, producing both rows (fewer than `k`, no error). -/
theorem c1_result_length_witness :
    ∃ l, (some [⟨1, 2, 1, 0, "W", "b"⟩, ⟨2, 1, 0, 0, "W", "a"⟩] :
        Option (List QResult)) = some l ∧
      l.length = min 3 [0, 1].length :=
  c1_result_length [[1], [2]] ["a", "b"] [0, 0] [⟨0, "W", 0, 2⟩] [1] 3 none
    [0, 1] (some [⟨1, 2, 1, 0, "W", "b"⟩, ⟨2, 1, 0, 0, "W", "a"⟩])
    rfl (by decide) (by decide) (by decide) (by decide)
    (by
      show ∃ idx,
        TopKSel (blockedScores [[1], [2]] [1] 131072 [0, 1]) (min 3 2) idx ∧
          (some [⟨1, 2, 1, 0, "W", "b"⟩, ⟨2, 1, 0, 0, "W", "a"⟩] :
            Option (List QResult)) =
            assembleResults [0, 1] (blockedScores [[1], [2]] [1] 131072 [0, 1])
              [0, 0] ["a", "b"] [⟨0, "W", 0, 2⟩] idx
      exact ⟨[1, 0], ⟨[1, 0], [0, 1], by decide, by decide, rfl⟩, by decide⟩)

theorem descSorted_head : ∀ (a : Int) (l : List Int),
    descSorted (a :: l) = true → ∀ b ∈ l, b ≤ a := by
  intro a l
  induction l generalizing a with
  | nil =>
    intro _ b hb
    simp at hb
  | cons c t ih =>
    intro h b hb
    have hh : c ≤ a ∧ descSorted (c :: t) = true := by
      simpa [descSorted] using h
    rcases List.mem_cons.mp hb with rfl | hb'
    · exact hh.1
    · have := ih c hh.2 b hb'
      omega

theorem descSorted_pairwise : ∀ l : List Int,
    descSorted l = true → l.Pairwise (fun a b => b ≤ a) := by
  intro l
  induction l with
  | nil =>
    intro _
    exact List.Pairwise.nil
  | cons a t ih =>
    intro h
    have ht : descSorted t = true := by
      cases t with
      | nil => rfl
      | cons c t' =>
        have hh : c ≤ a ∧ descSorted (c :: t') = true := by
          simpa [descSorted] using h
        exact hh.2
    exact List.Pairwise.cons (descSorted_head a t h) (ih ht)

theorem insertByScore_perm (x : Nat × Int) :
    ∀ l : List (Nat × Int), (insertByScore x l).Perm (x :: l) := by
  intro l
  induction l with
  | nil => exact List.Perm.refl _
  | cons y ys ih =>
    unfold insertByScore
    by_cases h : y.2 ≤ x.2
    · rw [if_pos h]
    · rw [if_neg h]
      exact (ih.cons y).trans (List.Perm.swap x y ys)

theorem sortDescByScore_perm (l : List (Nat × Int)) :
    (sortDescByScore l).Perm l := by
  induction l with
  | nil => exact List.Perm.refl _
  | cons x t ih =>
    show (insertByScore x (sortDescByScore t)).Perm (x :: t)
    exact (insertByScore_perm x (sortDescByScore t)).trans (ih.cons x)

theorem insertByScore_pairwise (x : Nat × Int) :
    ∀ l : List (Nat × Int), l.Pairwise (fun a b => b.2 ≤ a.2) →
      (insertByScore x l).Pairwise (fun a b => b.2 ≤ a.2) := by
  intro l
  induction l with
  | nil =>
    intro _
    refine List.pairwise_cons.mpr ⟨?_, List.Pairwise.nil⟩
    intro b hb
    simp at hb
  | cons y ys ih =>
    intro hp
    obtain ⟨hy, hys⟩ := List.pairwise_cons.mp hp
    unfold insertByScore
    by_cases h : y.2 ≤ x.2
    · rw [if_pos h]
      refine List.pairwise_cons.mpr ⟨?_, hp⟩
      intro b hb
      rcases List.mem_cons.mp hb with rfl | hb'
      · exact h
      · have := hy b hb'
        omega
    · rw [if_neg h]
      refine List.pairwise_cons.mpr ⟨?_, ih hys⟩
      intro b hb
      have hbmem : b ∈ x :: ys := (insertByScore_perm x ys).mem_iff.mp hb
      rcases List.mem_cons.mp hbmem with rfl | hb'
      · omega
      · exact hy b hb'

theorem sortDescByScore_pairwise (l : List (Nat × Int)) :
    (sortDescByScore l).Pairwise (fun a b => b.2 ≤ a.2) := by
  induction l with
  | nil => exact List.Pairwise.nil
  | cons x t ih =>
    show (insertByScore x (sortDescByScore t)).Pairwise _
    exact insertByScore_pairwise x (sortDescByScore t) ih

theorem pairwise_strict_of_snd_nodup (l : List (Nat × Int))
    (h1 : l.Pairwise (fun a b => b.2 ≤ a.2))
    (h2 : (l.map Prod.snd).Nodup) :
    l.Pairwise (fun a b => b.2 < a.2) := by
  have h2' : l.Pairwise (fun a b => Prod.snd a ≠ Prod.snd b) :=
    List.pairwise_map.mp h2
  exact (h1.and h2').imp (fun h => by omega)

theorem sorted_split_take :
    ∀ (D X Y : List (Nat × Int)),
      D.Pairwise (fun a b => b.2 < a.2) →
      X.Pairwise (fun a b => b.2 < a.2) →
      D.Perm (X ++ Y) →
      (∀ x ∈ X, ∀ y ∈ Y, y.2 < x.2) →
      X = D.take X.length := by
  intro D
  induction D with
  | nil =>
    intro X Y _ _ hperm _
    have hxy : X ++ Y = [] := (hperm.symm).eq_nil
    rw [(List.append_eq_nil.mp hxy).1]
    rfl
  | cons d D' ih =>
    intro X Y hD hX hperm hcross
    cases X with
    | nil => rfl
    | cons x X' =>
      have hdmax : ∀ e ∈ D', e.2 < d.2 :=
        fun e he => List.rel_of_pairwise_cons hD he
      have hxmem : x ∈ d :: D' :=
        hperm.mem_iff.mpr (by simp)
      have hxle : x.2 ≤ d.2 := by
        rcases List.mem_cons.mp hxmem with rfl | hx'
        · omega
        · have := hdmax x hx'
          omega
      have hdX : d ∈ x :: X' := by
        have hd : d ∈ (x :: X') ++ Y := hperm.mem_iff.mp (by simp)
        rcases List.mem_append.mp hd with h | hY
        · exact h
        · have := hcross x (by simp) d hY
          omega
      have hxd : x = d := by
        rcases List.mem_cons.mp hdX with h | hdX'
        · exact h.symm
        · have := List.rel_of_pairwise_cons hX hdX'
          omega
      have hperm' : D'.Perm (X' ++ Y) := by
        have hc : (d :: D').Perm (d :: (X' ++ Y)) := by
          have hp2 := hperm
          rw [hxd] at hp2
          exact hp2
        exact hc.cons_inv
      have hrec := ih X' Y (List.pairwise_cons.mp hD).2
        (List.pairwise_cons.mp hX).2 hperm'
        (fun a ha b hb => hcross a (List.mem_cons_of_mem _ ha) b hb)
      show x :: X' = (d :: D').take (x :: X').length
      rw [List.length_cons, List.take_succ_cons, hxd, ← hrec]

theorem take_mem_getD {p : List Nat} {k a : Nat} (h : a ∈ p.take k) :
    ∃ i, i < k ∧ i < p.length ∧ p.getD i 0 = a := by
  obtain ⟨i, hi, hget⟩ := List.mem_iff_getElem.mp h
  rw [List.length_take] at hi
  have hik : i < k := lt_of_lt_of_le hi (min_le_left _ _)
  have hip : i < p.length := lt_of_lt_of_le hi (min_le_right _ _)
  refine ⟨i, hik, hip, ?_⟩
  rw [getD_eq_get p i 0 hip, List.get_eq_getElem, ← hget]
  exact (List.getElem_take p).symm

theorem drop_mem_getD {p : List Nat} {k b : Nat} (h : b ∈ p.drop k) :
    ∃ j, k + j < p.length ∧ p.getD (k + j) 0 = b := by
  obtain ⟨j, hj, hget⟩ := List.mem_iff_getElem.mp h
  rw [List.length_drop] at hj
  have hkj : k + j < p.length := by omega
  refine ⟨j, hkj, ?_⟩
  rw [getD_eq_get p (k + j) 0 hkj, List.get_eq_getElem, ← hget]
  exact (List.getElem_drop p).symm

/-- C8: on a consistent store whose candidate scores are pairwise distinct
(the content of the random stores in the spec property — ties have
probability zero), every admissible outcome of the blocked
scan with `argpartition` plus exact sort of the final `k` equals, as a
`(row, score)` sequence, the spec-side brute force that scores all candidates
at once and fully sorts them in descending order: same result set, same
order, for every `k` and every store size. -/
theorem c8_blocked_matches_brute (embs : List (List Int)) (texts : List String)
    (work_ids : List Nat) (works_idx : List WorkRec) (qv : List Int)
    (top_k : Nat) (work_filter : Option String) (rows : List Nat)
    (out : Option (List QResult))
    (hrows : candidateRows embs.length works_idx work_filter = some rows)
    (hbound : ∀ r ∈ rows, r < embs.length ∧
      (embs.getD r []).length = qv.length)
    (hne : rows ≠ [])
    (hwid : ∀ r ∈ rows, r < work_ids.length)
    (htxt : ∀ r ∈ rows, r < texts.length)
    (hnodup : (rows.map (scoreAt embs qv)).Nodup)
    (hout : query_hdf5 embs texts work_ids works_idx qv top_k work_filter
      out) :
    ∃ l, out = some l ∧
      l.map (fun r => (r.row, r.score)) =
        bruteForceTopK embs qv rows (min top_k rows.length) := by
  rw [query_hdf5_some_rows embs texts work_ids works_idx qv top_k work_filter
    rows out hrows] at hout
  rw [if_pos hbound] at hout
  rw [if_neg (fun hz => hne (List.length_eq_zero.mp hz))] at hout
  obtain ⟨idx, hsel, hassem⟩ := hout
  set scores := blockedScores embs qv 131072 rows with hscdef
  set k := min top_k rows.length with hkdef
  have hscores : scores = rows.map (scoreAt embs qv) :=
    blockedScores_eq_map embs qv 131072 (by omega) rows
  have hslen : scores.length = rows.length := by
    rw [hscores, List.length_map]
  have hkle : k ≤ scores.length := by omega
  have hsnodup : scores.Nodup := by
    rw [hscores]
    exact hnodup
  obtain ⟨p, q, ⟨hperm, hkth, hpart1, hpart2⟩, ⟨hqperm, hsort⟩, hidx⟩ := hsel
  have hplen : p.length = scores.length := perm_range_length p _ hperm
  have hpnodup : p.Nodup := perm_range_nodup p _ hperm
  have htlen : (p.take k).length = k := by
    rw [List.length_take]
    omega
  have hvlen : ((p.take k).map (fun j => scores.getD j 0)).length = k := by
    rw [List.length_map, htlen]
  rw [hvlen] at hqperm
  have hqk : ∀ j ∈ q, j < k := perm_range_mem_lt q k hqperm
  have hidxperm : idx.Perm (p.take k) := by
    have hq2 : q.Perm (List.range (p.take k).length) := by
      rw [htlen]
      exact hqperm
    rw [hidx]
    exact perm_map_getD q (p.take k) 0 hq2
  have hidxlen : idx.length = k := by
    rw [hidx, List.length_map, perm_range_length q k hqperm]
  have hidxlt : ∀ i ∈ idx, i < scores.length := fun i hi =>
    perm_range_mem_lt p _ hperm i
      (List.mem_of_mem_take (hidxperm.mem_iff.mp hi))
  have hidxnodup : idx.Nodup :=
    hidxperm.symm.nodup ((List.take_sublist k p).nodup hpnodup)
  have hmem4 : ∀ i ∈ idx, i < rows.length ∧ i < scores.length ∧
      rows.getD i 0 < work_ids.length ∧ rows.getD i 0 < texts.length := by
    intro i hi
    have h1 := hidxlt i hi
    have h1r : i < rows.length := by omega
    have hrm : rows.getD i 0 ∈ rows := getD_mem_of_lt rows i 0 h1r
    exact ⟨h1r, h1, hwid _ hrm, htxt _ hrm⟩
  rw [assembleResults_eq_some rows scores work_ids texts works_idx idx hmem4]
    at hassem
  refine ⟨_, hassem, ?_⟩
  have hL : (idx.enum.map (fun e =>
      (⟨e.1 + 1, scores.getD e.2 0, rows.getD e.2 0,
        work_ids.getD (rows.getD e.2 0) 0,
        lookupTitle works_idx (work_ids.getD (rows.getD e.2 0) 0),
        texts.getD (rows.getD e.2 0) ""⟩ : QResult))).map
        (fun r => (r.row, r.score)) =
      idx.map (fun i => (rows.getD i 0, scores.getD i 0)) := by
    rw [List.map_map]
    have hc : ((fun r : QResult => (r.row, r.score)) ∘ (fun e : Nat × Nat =>
        (⟨e.1 + 1, scores.getD e.2 0, rows.getD e.2 0,
          work_ids.getD (rows.getD e.2 0) 0,
          lookupTitle works_idx (work_ids.getD (rows.getD e.2 0) 0),
          texts.getD (rows.getD e.2 0) ""⟩ : QResult))) =
        ((fun i : Nat => (rows.getD i 0, scores.getD i 0)) ∘ Prod.snd) := rfl
    rw [hc, ← List.map_map]
    have henum : List.map Prod.snd idx.enum = idx := by
      simp [List.enum]
    rw [henum]
  rw [hL]
  have hcand_eq : rows.map (fun r => (r, scoreAt embs qv r)) =
      (List.range scores.length).map
        (fun i => (rows.getD i 0, scores.getD i 0)) := by
    rw [hslen]
    conv_lhs =>
      rw [show rows = (List.range rows.length).map (fun i => rows.getD i 0)
        from (map_getD_range rows 0).symm]
    rw [List.map_map]
    apply List.map_congr_left
    intro i hi
    rw [List.mem_range] at hi
    show (rows.getD i 0, scoreAt embs qv (rows.getD i 0)) =
      (rows.getD i 0, scores.getD i 0)
    have hsc : scores.getD i 0 = scoreAt embs qv (rows.getD i 0) := by
      rw [hscores]
      exact getD_map (scoreAt embs qv) rows i 0 0 hi
    rw [hsc]
  have hDperm : (sortDescByScore (rows.map (fun r => (r, scoreAt embs qv r)))).Perm
      (rows.map (fun r => (r, scoreAt embs qv r))) :=
    sortDescByScore_perm _
  have hDpair := sortDescByScore_pairwise
    (rows.map (fun r => (r, scoreAt embs qv r)))
  have hcand_snd : (rows.map (fun r => (r, scoreAt embs qv r))).map Prod.snd =
      scores := by
    rw [List.map_map, hscores]
    rfl
  have hD_snd_nodup : ((sortDescByScore
      (rows.map (fun r => (r, scoreAt embs qv r)))).map Prod.snd).Nodup := by
    have hcn : ((rows.map (fun r => (r, scoreAt embs qv r))).map
        Prod.snd).Nodup := by
      rw [hcand_snd]
      exact hsnodup
    exact ((hDperm.map Prod.snd).symm).nodup hcn
  have hDstrict := pairwise_strict_of_snd_nodup _ hDpair hD_snd_nodup
  have hX_snd : (idx.map (fun i => (rows.getD i 0, scores.getD i 0))).map
      Prod.snd = idx.map (fun i => scores.getD i 0) := by
    rw [List.map_map]
    rfl
  have hXvals : q.map (fun j =>
      ((p.take k).map (fun j => scores.getD j 0)).getD j 0) =
      idx.map (fun i => scores.getD i 0) := by
    rw [hidx, List.map_map]
    apply List.map_congr_left
    intro j hj
    have hjk : j < k := hqk j hj
    show ((p.take k).map (fun j => scores.getD j 0)).getD j 0 =
      scores.getD ((p.take k).getD j 0) 0
    exact getD_map (fun j => scores.getD j 0) (p.take k) j 0 0
      (by rw [htlen]; exact hjk)
  have hXsortvals : descSorted (idx.map (fun i => scores.getD i 0)) = true := by
    rw [← hXvals]
    exact hsort
  have hXpair : (idx.map (fun i => (rows.getD i 0, scores.getD i 0))).Pairwise
      (fun a b => b.2 ≤ a.2) := by
    have hp1 := descSorted_pairwise _ hXsortvals
    rw [← hX_snd] at hp1
    exact List.pairwise_map.mp hp1
  have hX_snd_nodup : ((idx.map
      (fun i => (rows.getD i 0, scores.getD i 0))).map Prod.snd).Nodup := by
    rw [hX_snd]
    refine List.Nodup.map_on ?_ hidxnodup
    intro a ha b hb hfab
    exact nodup_getD_inj scores 0 hsnodup a b (hidxlt a ha) (hidxlt b hb) hfab
  have hXstrict := pairwise_strict_of_snd_nodup _ hXpair hX_snd_nodup
  have hpmap : (p.map (fun i => (rows.getD i 0, scores.getD i 0))).Perm
      ((List.range scores.length).map
        (fun i => (rows.getD i 0, scores.getD i 0))) :=
    hperm.map _
  have hXperm : (idx.map (fun i => (rows.getD i 0, scores.getD i 0))).Perm
      ((p.take k).map (fun i => (rows.getD i 0, scores.getD i 0))) :=
    hidxperm.map _
  have hDXY : (sortDescByScore
      (rows.map (fun r => (r, scoreAt embs qv r)))).Perm
      ((idx.map (fun i => (rows.getD i 0, scores.getD i 0))) ++
        ((p.drop k).map (fun i => (rows.getD i 0, scores.getD i 0)))) := by
    have h1 : (sortDescByScore
        (rows.map (fun r => (r, scoreAt embs qv r)))).Perm
        (p.map (fun i => (rows.getD i 0, scores.getD i 0))) := by
      refine hDperm.trans ?_
      rw [hcand_eq]
      exact hpmap.symm
    have hsplit : p.map (fun i => (rows.getD i 0, scores.getD i 0)) =
        (p.take k).map (fun i => (rows.getD i 0, scores.getD i 0)) ++
        (p.drop k).map (fun i => (rows.getD i 0, scores.getD i 0)) := by
      rw [← List.map_append, List.take_append_drop]
    rw [hsplit] at h1
    exact h1.trans ((hXperm.symm).append_right _)
  have hcross : ∀ x ∈ idx.map (fun i => (rows.getD i 0, scores.getD i 0)),
      ∀ y ∈ (p.drop k).map (fun i => (rows.getD i 0, scores.getD i 0)),
      y.2 < x.2 := by
    intro x hx y hy
    obtain ⟨a, ha, rfl⟩ := List.mem_map.mp hx
    obtain ⟨b, hbD, rfl⟩ := List.mem_map.mp hy
    have haT : a ∈ p.take k := hidxperm.mem_iff.mp ha
    obtain ⟨i, hik, hip, hpa⟩ := take_mem_getD haT
    obtain ⟨j, hkj, hpb⟩ := drop_mem_getD hbD
    have h1 : scores.getD (p.getD (k - 1) 0) 0 ≤
        scores.getD (p.getD i 0) 0 := hpart1 i (by omega)
    have h2 : scores.getD (p.getD (k + j) 0) 0 ≤
        scores.getD (p.getD (k - 1) 0) 0 :=
      hpart2 (k + j) (by omega) (by omega)
    have hab : a ≠ b := by
      intro heq
      have hij : i = k + j := nodup_getD_inj p 0 hpnodup i (k + j)
        (by omega) (by omega) (by rw [hpa, hpb, heq])
      omega
    have halt : a < scores.length := perm_range_mem_lt p _ hperm a
      (List.mem_of_mem_take haT)
    have hblt : b < scores.length := perm_range_mem_lt p _ hperm b
      (List.mem_of_mem_drop hbD)
    have hne2 : scores.getD a 0 ≠ scores.getD b 0 := fun hc =>
      hab (nodup_getD_inj scores 0 hsnodup a b halt hblt hc)
    show scores.getD b 0 < scores.getD a 0
    rw [hpa] at h1
    rw [hpb] at h2
    omega
  have hfin := sorted_split_take _ _ _ hDstrict hXstrict hDXY hcross
  rw [List.length_map, hidxlen] at hfin
  rw [hfin]
  rfl

/-- C8, witness: the theorem evaluated on a concrete three-row store with
distinct scores and `k = 2`. -/
theorem c8_blocked_matches_brute_witness :
    ∃ l, (some [⟨1, 3, 1, 0, "W", "b"⟩, ⟨2, 2, 2, 0, "W", "c"⟩] :
        Option (List QResult)) = some l ∧
      l.map (fun r => (r.row, r.score)) =
        bruteForceTopK [[1], [3], [2]] [1] [0, 1, 2] (min 2 [0, 1, 2].length) :=
  c8_blocked_matches_brute [[1], [3], [2]] ["a", "b", "c"] [0, 0, 0]
    [⟨0, "W", 0, 3⟩] [1] 2 none [0, 1, 2]
    (some [⟨1, 3, 1, 0, "W", "b"⟩, ⟨2, 2, 2, 0, "W", "c"⟩])
    rfl (by decide) (by decide) (by decide) (by decide) (by decide)
    (by
      show ∃ idx,
        TopKSel (blockedScores [[1], [3], [2]] [1] 131072 [0, 1, 2])
            (min 2 3) idx ∧
          (some [⟨1, 3, 1, 0, "W", "b"⟩, ⟨2, 2, 2, 0, "W", "c"⟩] :
            Option (List QResult)) =
            assembleResults [0, 1, 2]
              (blockedScores [[1], [3], [2]] [1] 131072 [0, 1, 2])
              [0, 0, 0] ["a", "b", "c"] [⟨0, "W", 0, 3⟩] idx
      exact ⟨[1, 2], ⟨[1, 2, 0], [0, 1], by decide, by decide, rfl⟩,
        by decide⟩)
